import Mathlib

/-!
Verification of the custom slash-command loading core of the gemini-cli
repository (packages/cli/src/services/CustomCommandLoader.ts and the
CommandService / command types modules).

The embedding models JavaScript strings as Lean `String` (lists of code
points), JavaScript runtime values as `JSValue`, and the `Map` registry as
an association list with JS `Map.set` semantics (replace in place or
append).  Filesystem contents and the results of the out-of-scope external
parsers (`JSON.parse`, dynamic `import`) are supplied as explicit data in
the file model, as the spec places parsing-library internals outside the
core's boundary.
-/

/-- ASCII uppercase letter test, `A`-`Z`. -/
def asciiUpper (c : Char) : Bool := 'A' ≤ c && c ≤ 'Z'

/-- ASCII lowercase letter test, `a`-`z`. -/
def asciiLowerP (c : Char) : Bool := 'a' ≤ c && c ≤ 'z'

/-- ASCII letter test, as in the regex class `[a-zA-Z]`. -/
def asciiAlpha (c : Char) : Bool := asciiUpper c || asciiLowerP c

/-- ASCII digit test, as in the regex class `[0-9]`. -/
def asciiDigit (c : Char) : Bool := '0' ≤ c && c ≤ '9'

/-- Lowercases one ASCII letter; other code points are left unchanged.
Models `String.prototype.toLowerCase` on the inputs that occur here (it is
applied only to ASCII-filtered text for names, and to file extensions that
must equal one of the ASCII extension literals to matter). -/
def asciiLowerChar (c : Char) : Char :=
  if asciiUpper c then Char.ofNat (c.toNat + 32) else c

/-- Lowercase a whole string, code point by code point (ASCII letters only). -/
def asciiLowerStr (s : String) : String := String.mk (s.data.map asciiLowerChar)

/-- The JavaScript whitespace set: the characters matched by the regex class
`\s` and removed by `String.prototype.trim` (WhiteSpace plus
LineTerminator). -/
def jsWs (c : Char) : Bool :=
  c = ' ' || c = '\t' || c = '\n' || c.toNat = 11 || c.toNat = 12 || c = '\r' ||
  c.toNat = 0xa0 || c.toNat = 0x1680 || (0x2000 ≤ c.toNat && c.toNat ≤ 0x200a) ||
  c.toNat = 0x2028 || c.toNat = 0x2029 || c.toNat = 0x202f || c.toNat = 0x205f ||
  c.toNat = 0x3000 || c.toNat = 0xfeff

/-- Drop leading and trailing JS whitespace from a list of code points. -/
def jsTrimList (xs : List Char) : List Char :=
  ((xs.dropWhile jsWs).reverse.dropWhile jsWs).reverse

/-- Models `String.prototype.trim`. -/
def jsTrim (s : String) : String := String.mk (jsTrimList s.data)

/-- Models `String.prototype.startsWith` for a literal argument. -/
def sw (s p : String) : Bool := p.data.isPrefixOf s.data

/-- Models `String.prototype.substring(n)` on code points. -/
def sDrop (s : String) (n : Nat) : String := String.mk (s.data.drop n)

/-- Models `String.prototype.substring(0, n)` on code points. -/
def sTake (s : String) (n : Nat) : String := String.mk (s.data.take n)

/-- GetSubstitution (ECMA-262), for a match with no capture groups — the
only kind this program produces (string patterns and the literal regex
`/\x7b\x7bargs\x7d\x7d/g`): expand the dollar escapes of the replacement
string against one match.  `$$` is a literal dollar, `$&` the matched
text, dollar-backtick the part of the original string before the match,
dollar-apostrophe the part after it; a dollar starting no escape stays
literal (this also covers `$n` and `$<`, since with zero capture groups
and no named captures they are left untouched). -/
def getSubstitution (matched before after : List Char) : List Char → List Char
  | [] => []
  | c :: rest =>
    if c = '$' then
      match rest with
      | [] => ['$']
      | d :: rest2 =>
        if d = '$' then '$' :: getSubstitution matched before after rest2
        else if d = '&' then matched ++ getSubstitution matched before after rest2
        else if d = '`' then before ++ getSubstitution matched before after rest2
        else if d = '\'' then after ++ getSubstitution matched before after rest2
        else '$' :: d :: getSubstitution matched before after rest2
    else c :: getSubstitution matched before after rest

/-- Replace the first occurrence of `pat` in the list by `repl` with
dollar-escape expansion (JS `String.prototype.replace` with a string
pattern); `before` carries the already-scanned prefix of the original
string for the dollar-backtick escape. -/
def replaceFirstAux (pat repl : List Char) (before : List Char) : List Char → List Char
  | [] => []
  | c :: cs =>
    if pat.isPrefixOf (c :: cs) then
      getSubstitution pat before ((c :: cs).drop pat.length) repl ++ (c :: cs).drop pat.length
    else c :: replaceFirstAux pat repl (before ++ [c]) cs

/-- Models `s.replace(pat, repl)` with a plain string pattern, including
the dollar-escape expansion of the replacement string. -/
def jsReplaceFirst (s pat repl : String) : String :=
  String.mk (replaceFirstAux pat.data repl.data [] s.data)

/-- Replace every occurrence of a non-empty literal pattern (JS `replace`
with a global regex of a literal word, as in `/\x7b\x7bargs\x7d\x7d/g`),
expanding the replacement's dollar escapes against each match position in
the original string. -/
def replaceAllAux (pat repl : List Char) (before : List Char) : List Char → List Char
  | [] => []
  | c :: cs =>
    if pat.isPrefixOf (c :: cs) then
      getSubstitution pat before ((c :: cs).drop pat.length) repl ++
        replaceAllAux pat repl (before ++ pat) (cs.drop (pat.length - 1))
    else c :: replaceAllAux pat repl (before ++ [c]) cs
termination_by l => l.length
decreasing_by
  · simp only [List.length_drop, List.length_cons]
    omega
  · simp only [List.length_cons]
    omega

/-- Models `s.replace(/pat/g, repl)` for a literal non-empty pattern. -/
def jsReplaceAll (s pat repl : String) : String :=
  String.mk (replaceAllAux pat.data repl.data [] s.data)

/-- Verbatim first-occurrence replacement, written from the amended C5
claim's words: what the substitution amounts to whenever the replacement
string contains no dollar (and what the original claim asserted of every
replacement). -/
def verbatimReplaceFirstAux (pat repl : List Char) : List Char → List Char
  | [] => []
  | c :: cs =>
    if pat.isPrefixOf (c :: cs) then repl ++ (c :: cs).drop pat.length
    else c :: verbatimReplaceFirstAux pat repl cs

/-- Verbatim `s.replace(pat, repl)`, the dollar-free reading. -/
def verbatimReplaceFirst (s pat repl : String) : String :=
  String.mk (verbatimReplaceFirstAux pat.data repl.data s.data)

/-- The literal placeholder token `{{args}}` used by argument templates. -/
def argsPlaceholder : String := "\x7b\x7bargs\x7d\x7d"

/-- Models `content.split('\n')`: split into lines at newline separators,
keeping empty segments exactly as JS `split` does. -/
def splitOnCharAux (sep : Char) : List Char → List Char → List String
  | [], acc => [String.mk acc.reverse]
  | c :: cs, acc =>
    if c = sep then String.mk acc.reverse :: splitOnCharAux sep cs []
    else splitOnCharAux sep cs (c :: acc)

/-- Split a string into its newline-separated lines. -/
def splitLines (s : String) : List String := splitOnCharAux '\n' s.data []

/-- JS falsy-string choice: `a || b` on strings, where the empty string is
falsy. -/
def jsOrS (a b : String) : String := if a = "" then b else a

/-- A JavaScript runtime value, as far as the command-loading code can
observe one: the structured-data files deserialize to these. -/
inductive JSValue where
  | undefinedV
  | nullv
  | boolean (b : Bool)
  | num (n : Int)
  | str (s : String)
  | arr (xs : List JSValue)

/-- JS truthiness of a value (`undefined`, `null`, `false`, `0` and the
empty string are falsy; every array is truthy). -/
def jsTruthy : JSValue → Bool
  | .undefinedV => false
  | .nullv => false
  | .boolean b => b
  | .num n => n ≠ 0
  | .str s => s ≠ ""
  | .arr _ => true

/-- Models `typeof v === 'string'`. -/
def isStrVal : JSValue → Bool
  | .str _ => true
  | _ => false

/-- Models `Array.isArray(v)`. -/
def isArrVal : JSValue → Bool
  | .arr _ => true
  | _ => false

mutual
/-- JS `ToString` coercion of a value (numbers print in decimal, arrays
join their elements with commas, `null`/`undefined` elements join as
empty). -/
def jsToString : JSValue → String
  | .undefinedV => "undefined"
  | .nullv => "null"
  | .boolean b => if b then "true" else "false"
  | .num n => toString n
  | .str s => s
  | .arr xs => String.intercalate "," (jsToStringList xs)

/-- Elementwise `ToString` used by `Array.prototype.join`. -/
def jsToStringList : List JSValue → List String
  | [] => []
  | .undefinedV :: xs => "" :: jsToStringList xs
  | .nullv :: xs => "" :: jsToStringList xs
  | x :: xs => jsToString x :: jsToStringList xs
end

/-- Scope where a custom command is defined (types.ts, `CommandScope`). -/
inductive CommandScope where
  | builtin
  | project
  | personal
deriving DecidableEq

/-- Source format for custom commands (types.ts, `CommandSourceFormat`). -/
inductive CommandSourceFormat where
  | typescript
  | json
  | yaml
  | markdown
deriving DecidableEq

/-- Metadata for custom commands (types.ts, `CustomCommandMetadata`).
Every field is optional here with `none` meaning "key absent", so that the
object-spread merge in `loadCommandFromFile` can be modelled key by key.
`category`, `tags`, `author` and `version` hold raw runtime values because
the structured-data parser copies them from the file unchecked. -/
structure CustomCommandMetadata where
  scope : Option CommandScope := none
  sourceFormat : Option CommandSourceFormat := none
  sourcePath : Option String := none
  category : Option JSValue := none
  tags : Option JSValue := none
  author : Option JSValue := none
  version : Option JSValue := none
  canExecuteShell : Option Bool := none

/-- The slice of the `Config` service the loader's actions consult:
`getProjectRoot()`. -/
structure ConfigModel where
  projectRoot : String

/-- The slice of `CommandContext` (types.ts) that generated actions read:
`context.services.config`, plus the ambient Node `process.cwd()` value,
which is carried here explicitly because the embedding has no ambient
process state. -/
structure CommandContext where
  config : Option ConfigModel
  processCwd : String

/-- Message severity of a `MessageActionReturn` (types.ts). -/
inductive MessageKind where
  | info
  | error
deriving DecidableEq

/-- The tagged result of running a command action (types.ts,
`SlashCommandActionReturn`).  The `tool` variant carries the two
`toolArgs` fields the generated shell actions produce. -/
inductive SlashCommandActionReturn where
  | tool (toolName : String) (command : String) (cwd : String)
  | message (messageType : MessageKind) (content : String)
  | dialog (dialog : String)
  | aiPrompt (content : String)

/-- The standardized contract for any command in the system (types.ts,
`SlashCommand`).  `completion` and `subCommands` are omitted: they are
exercised only by the dynamically imported TypeScript path, which this
embedding models as an oracle (dynamic code loading has no pure shallow
embedding). -/
structure SlashCommand where
  name : String
  altName : Option String := none
  description : Option String := none
  action : Option (CommandContext → String → SlashCommandActionReturn) := none
  metadata : Option CustomCommandMetadata := none

/-- CustomCommandLoader.sanitizeCommandName (lines 406-423): drop non-ASCII
code points; if only whitespace remains, return the empty string (the "no
name" signal); otherwise lower-case, drop characters outside
`[a-zA-Z0-9\s-]`, turn every whitespace run into one hyphen, drop any
non-letter prefix, collapse hyphen runs, trim hyphens at both ends, and
keep at most 50 characters. -/
def collapseRunsAux (p : Char → Bool) (r : Char) : Bool → List Char → List Char
  | _, [] => []
  | prev, c :: cs =>
    if p c then
      (if prev then collapseRunsAux p r true cs else r :: collapseRunsAux p r true cs)
    else c :: collapseRunsAux p r false cs

/-- Replace every maximal run of characters satisfying `p` by the single
character `r` (the shape of `replace(/X+/g, 'r')`). -/
def collapseRuns (p : Char → Bool) (r : Char) (l : List Char) : List Char :=
  collapseRunsAux p r false l

/-- Drop leading and trailing hyphens (the regex `/^-+|-+$/g`). -/
def trimHyphens (l : List Char) : List Char :=
  ((l.dropWhile (fun c => c = '-')).reverse.dropWhile (fun c => c = '-')).reverse

/-- CustomCommandLoader.sanitizeCommandName, translated step by step from
the chain of `replace` calls. -/
def sanitizeCommandName (name : String) : String :=
  let ascii := name.data.filter (fun c => c.toNat ≤ 127)
  if (jsTrimList ascii).isEmpty then ""
  else
    let lowered := ascii.map asciiLowerChar
    let kept := lowered.filter (fun c => asciiAlpha c || asciiDigit c || jsWs c || c = '-')
    let hyphened := collapseRuns jsWs '-' kept
    let letterStart := hyphened.dropWhile (fun c => !asciiAlpha c)
    let collapsed := collapseRuns (fun c => c = '-') '-' letterStart
    String.mk ((trimHyphens collapsed).take 50)

/-- Configuration record for a simple JSON/YAML command
(CustomCommandLoader.ts, `SimpleCommandConfig`).  Fields hold raw runtime
values as `JSON.parse` returns them; `JSValue.undefinedV` is an absent field. -/
structure SimpleCommandConfig where
  name : JSValue := .undefinedV
  altName : JSValue := .undefinedV
  description : JSValue := .undefinedV
  category : JSValue := .undefinedV
  tags : JSValue := .undefinedV
  author : JSValue := .undefinedV
  version : JSValue := .undefinedV
  command : JSValue := .undefinedV
  args : JSValue := .undefinedV
  cwd : JSValue := .undefinedV

/-- The command-name pattern `^[a-zA-Z][a-zA-Z0-9-]*$`. -/
def namePatternTest (s : String) : Bool :=
  match s.data with
  | [] => false
  | c :: rest => asciiAlpha c && rest.all (fun d => asciiAlpha d || asciiDigit d || d = '-')

/-- True when some element of a `tags` array is not a string (the loop body
of the tags check; the loop pushes one message and breaks). -/
def tagsHasNonString : JSValue → Bool
  | .arr xs => xs.any (fun x => !isStrVal x)
  | _ => false

/-- CustomCommandLoader.validateSimpleCommand (lines 428-477): the defect
list, one segment per check, concatenated in source order (name, altName,
command, args, cwd, category, tags, author, version).  Note that each
type check is guarded by JS truthiness (`config.command && typeof ... !==
'string'`), and that `description` has no check in this function. -/
def validateSimpleCommand (config : SimpleCommandConfig) : List String :=
  (if !jsTruthy config.name || !isStrVal config.name then
    ["Missing required \"name\" property"]
   else if !namePatternTest (jsToString config.name) then
    ["Command name must start with a letter and contain only letters, numbers, and hyphens"]
   else [])
  ++ (if jsTruthy config.altName && !namePatternTest (jsToString config.altName) then
    ["Command altName must start with a letter and contain only letters, numbers, and hyphens"]
   else [])
  ++ (if jsTruthy config.command && !isStrVal config.command then
    ["Command \"command\" must be a string"] else [])
  ++ (if jsTruthy config.args && !isStrVal config.args then
    ["Command \"args\" must be a string"] else [])
  ++ (if jsTruthy config.cwd && !isStrVal config.cwd then
    ["Command \"cwd\" must be a string"] else [])
  ++ (if jsTruthy config.category && !isStrVal config.category then
    ["Command \"category\" must be a string"] else [])
  ++ (if jsTruthy config.tags && !isArrVal config.tags then
    ["Command \"tags\" must be an array"]
   else if jsTruthy config.tags && tagsHasNonString config.tags then
    ["All tags must be strings"] else [])
  ++ (if jsTruthy config.author && !isStrVal config.author then
    ["Command \"author\" must be a string"] else [])
  ++ (if jsTruthy config.version && !isStrVal config.version then
    ["Command \"version\" must be a string"] else [])

/-- Option-of-string view of a runtime value for the record fields typed
`string | undefined` in TS (`altName`, `description`): absent and `null`
become `none`; truthy non-strings (unreachable once validation passed, and
never used as keys when falsy) are represented by their coercion. -/
def optStrOf : JSValue → Option String
  | .undefinedV => none
  | .nullv => none
  | .str s => some s
  | v => if jsTruthy v then some (jsToString v) else none

/-- Resolution of `context.services.config?.getProjectRoot() ||
process.cwd()`. -/
def resolveRootCwd (ctx : CommandContext) : String :=
  match ctx.config with
  | some cf => if cf.projectRoot = "" then ctx.processCwd else cf.projectRoot
  | none => ctx.processCwd

/-- CustomCommandLoader.createSimpleCommand (lines 482-535): reject when the
defect list is non-empty, otherwise build the record.  The generated action
replaces the first `{{args}}` of the `args` template (which defaults to the
empty string only when the field is `undefined`) with the user's raw
argument text, appends it to `command` with a space, trims, and requests
`run_shell_command` in `cwd || projectRoot || process.cwd()`.  A falsy
non-string `args` value (e.g. `null`) makes `args.replace` throw at call
time; the action's try/catch turns that into an error message, modelled by
the catch-all branch.  After validation a truthy `command`/`cwd` is a
string, so `jsToString` below is the identity on every reachable input. -/
def createSimpleCommand (config : SimpleCommandConfig) : Option SlashCommand :=
  if validateSimpleCommand config ≠ [] then none
  else
    some
      { name := jsToString config.name
        altName := optStrOf config.altName
        description := optStrOf config.description
        metadata := some
          { scope := some .project
            sourceFormat := some .json
            sourcePath := none
            category := some config.category
            tags := some config.tags
            author := some config.author
            version := some config.version
            canExecuteShell := some (jsTruthy config.command) }
        action :=
          if jsTruthy config.command then
            some (fun ctx userArgs =>
              match config.args with
              | .undefinedV =>
                .tool "run_shell_command"
                  (jsTrim (jsToString config.command ++ " " ++
                    jsReplaceFirst "" argsPlaceholder userArgs))
                  (if jsTruthy config.cwd then jsToString config.cwd
                   else resolveRootCwd ctx)
              | .str a =>
                .tool "run_shell_command"
                  (jsTrim (jsToString config.command ++ " " ++
                    jsReplaceFirst a argsPlaceholder userArgs))
                  (if jsTruthy config.cwd then jsToString config.cwd
                   else resolveRootCwd ctx)
              | _ => .message .error "Failed to execute command: TypeError")
          else none }

/-- Title extraction loop of CustomCommandLoader.loadMarkdownCommand
(lines 284-290): the text after the first `# ` heading, or the empty
string. -/
def mdTitle : List String → String
  | [] => ""
  | l :: ls =>
    let t := jsTrim l
    if sw t "# " then jsTrim (sDrop t 2) else mdTitle ls

/-- The shell-block / description scanning loop of
CustomCommandLoader.loadMarkdownCommand (lines 292-324), carried out over
the lines with the loop state (inCodeBlock, codeBlockContent, description).
Returns the pair (shellCommand, description); the loop `break`s — ending
the whole scan — at the first closing fence of a shell block whose
accumulated content is not blank.  Note two facts visible in the source:
the description branch is not guarded by `inCodeBlock`, and a line inside
a shell block falls through to the description check. -/
def mdScan : List String → Bool → String → String → String × String
  | [], _, _, desc => ("", desc)
  | l :: ls, inCode, content, desc =>
    let t := jsTrim l
    if sw t "```bash" || sw t "```sh" || sw t "```shell" then
      mdScan ls true content desc
    else if t = "```" && inCode then
      (if jsTrim content ≠ "" then (jsTrim content, desc)
       else mdScan ls false "" desc)
    else
      let content' := if inCode then content ++ l ++ "\n" else content
      let desc' :=
        if desc = "" && sw t "## " then jsTrim (sDrop t 3)
        else if desc = "" && t ≠ "" && !sw t "#" && !sw t "```" then t
        else desc
      mdScan ls inCode content' desc'

/-- Last path component (the part after the final `/`), as `path.basename`
computes it for the POSIX paths used here. -/
def lastComponent (p : String) : String :=
  (splitOnCharAux '/' p.data []).getLastD p

/-- Models `path.extname`: the suffix of the basename from its last dot,
empty when there is no dot or the only dot is the leading one (dotfiles).
Directory entries are actual file names (readdir never yields `.`/`..`). -/
def extnameOf (p : String) : String :=
  let b := (lastComponent p).data
  let afterDot := b.reverse.takeWhile (fun c => c ≠ '.')
  if afterDot.length = b.length then ""
  else if afterDot.length + 1 = b.length then ""
  else String.mk (b.drop (b.length - (afterDot.length + 1)))

/-- Models `path.basename(p, path.extname(p))`: the basename with its
extension removed when the extension is a proper suffix. -/
def basenameDropExt (p : String) : String :=
  let b := lastComponent p
  let e := extnameOf p
  if e ≠ "" && b.endsWith e && e.length < b.length then
    String.mk (b.data.take (b.data.length - e.data.length))
  else b

/-- CustomCommandLoader.loadMarkdownCommand (lines 272-401) given the file
path and the file's text: the record built from title, description, shell
block and fallbacks.  The `action` is the shell
dispatch with global `{{args}}` substitution when a shell block was found,
and otherwise the AI-prompt hand-off of the trimmed content with the
trimmed arguments appended as a new paragraph. -/
def loadMarkdownCommand (filePath content : String) : Option SlashCommand :=
  let filename := basenameDropExt filePath
  let lines := splitLines content
  let title := mdTitle lines
  let scanned := mdScan lines false "" ""
  let shellCommand := scanned.1
  let description := scanned.2
  let name1 := sanitizeCommandName title
  let commandName := if name1 = "" then sanitizeCommandName filename else name1
  if commandName = "" then none
  else
    some
      { name := commandName
        description := some (jsOrS description (jsOrS title ("Command from " ++ filename)))
        metadata := some
          { scope := some .personal
            sourceFormat := some .markdown
            sourcePath := none
            category := some (.str "markdown")
            tags := some (.arr [.str "markdown", .str "custom"])
            author := none
            version := none
            canExecuteShell := if shellCommand ≠ "" then some true else none }
        action := some
          (if shellCommand ≠ "" then
            fun ctx args =>
              .tool "run_shell_command"
                (jsReplaceAll shellCommand argsPlaceholder args)
                (resolveRootCwd ctx)
          else
            fun _ctx args =>
              .aiPrompt (jsTrim content ++
                (if jsTrim args ≠ "" then "\n\n" ++ jsTrim args else ""))) }

/-- CustomCommandLoader.getSourceFormat (lines 643-659). -/
def getSourceFormat (ext : String) : Option CommandSourceFormat :=
  if ext = ".ts" || ext = ".js" then some .typescript
  else if ext = ".json" then some .json
  else if ext = ".yaml" || ext = ".yml" then some .yaml
  else if ext = ".md" || ext = ".markdown" then some .markdown
  else none

/-- What the filesystem and the out-of-scope external parsers deliver for
one file: the `fs.readFile` result, the result `JSON.parse` would produce
on that text (the JSON grammar itself is outside the core per the spec),
and, for `.ts`/`.js` files, the record that the dynamic `import` plus
`validateCommand` pipeline would yield — an oracle, because dynamic code
loading has no pure embedding. -/
structure FileModel where
  read : Except String String
  jsonParsed : Except String SimpleCommandConfig := .error "SyntaxError"
  tsLoaded : Option SlashCommand := none

/-- Object-spread merge `\x7b base-literal, ...extra \x7d`: a key present in
`extra` (the parser-produced metadata) wins over the same key of the
caller-written literal; keys absent from `extra` keep the literal's value.
This is the merge at CustomCommandLoader.ts lines 182-187. -/
def spreadMerge (base extra : CustomCommandMetadata) : CustomCommandMetadata :=
  { scope := extra.scope <|> base.scope
    sourceFormat := extra.sourceFormat <|> base.sourceFormat
    sourcePath := extra.sourcePath <|> base.sourcePath
    category := extra.category <|> base.category
    tags := extra.tags <|> base.tags
    author := extra.author <|> base.author
    version := extra.version <|> base.version
    canExecuteShell := extra.canExecuteShell <|> base.canExecuteShell }

/-- CustomCommandLoader.loadCommandFromFile (lines 150-197): dispatch on
the lower-cased extension; every per-format failure (unsupported type,
read error, parse error, validation failure, the unimplemented YAML path)
yields `none`; on success the caller's scope/format/path literal is merged
with the parser's metadata by object spread. -/
def loadCommandFromFile (filePath : String) (scope : CommandScope) (f : FileModel) :
    Option SlashCommand :=
  let ext := asciiLowerStr (extnameOf filePath)
  match getSourceFormat ext with
  | none => none
  | some fmt =>
    let cmd : Option SlashCommand :=
      match fmt with
      | .typescript => f.tsLoaded
      | .json =>
        match f.read with
        | .error _ => none
        | .ok _ =>
          match f.jsonParsed with
          | .error _ => none
          | .ok cfg => createSimpleCommand cfg
      | .yaml => none
      | .markdown =>
        match f.read with
        | .error _ => none
        | .ok content => loadMarkdownCommand filePath content
    cmd.map (fun c =>
      { c with metadata := some (spreadMerge
          { scope := some scope
            sourceFormat := some fmt
            sourcePath := some filePath }
          (c.metadata.getD {})) })

/-- The command registry: a JS `Map` from name/alias to record, as an
association list.  `Map.set` replaces in place when the key exists and
appends otherwise; `Map.get` is the first (unique) matching entry. -/
def Registry := List (String × SlashCommand)

/-- Models `Map.set`. -/
def mapSet : Registry → String → SlashCommand → Registry
  | [], k, v => [(k, v)]
  | (k', v') :: rest, k, v =>
    if k' = k then (k, v) :: rest else (k', v') :: mapSet rest k v

/-- Models `Map.get`. -/
def mapFind : Registry → String → Option SlashCommand
  | [], _ => none
  | (k', v) :: rest, k => if k' = k then some v else mapFind rest k

/-- The insertion step shared by CommandService.loadCommands (lines 61-74)
and CustomCommandLoader.loadCommandsFromDirectory (lines 134-137):
`map.set(command.name, command)`, then `if (command.altName)
map.set(command.altName, command)` — the alias key is written only when
truthy (defined and non-empty). -/
def insertCommand (m : Registry) (c : SlashCommand) : Registry :=
  let m1 := mapSet m c.name c
  match c.altName with
  | some a => if a = "" then m1 else mapSet m1 a c
  | none => m1

/-- CommandService.loadCommands merge (part_001 lines 57-76): built-in
records are folded into a fresh map first, then the custom records (which
arrive as the project directory's records followed by the personal
directory's records); each insertion silently overwrites, and the function
is total — no error is raised on collision. -/
def loadCommands (builtInCommands customCommands : List SlashCommand) : Registry :=
  customCommands.foldl insertCommand (builtInCommands.foldl insertCommand [])

/-- One scope directory with what the filesystem reports for it:
`CommandDirectoryConfig` (path, scope, enabled) plus the outcome of the
existence check / `readdir` call. -/
inductive DirListing where
  /-- The directory does not exist (`directoryExists` returns false). -/
  | missing
  /-- `readdir` throws; caught at lines 140-142, yielding no records. -/
  | readFailure
  /-- The directory's entries, each with its name, `isFile()` flag and
  file contents. -/
  | entries (es : List (String × Bool × FileModel))

/-- A configured command directory (CustomCommandLoader.setupDirectories)
together with its listing. -/
structure ScopeDir where
  path : String
  scope : CommandScope
  enabled : Bool
  listing : DirListing

/-- Models `path.join(dirPath, entry.name)` for the POSIX paths used here. -/
def joinPath (dir name : String) : String := dir ++ "/" ++ name

/-- CustomCommandLoader.loadCommandsFromDirectory (lines 111-145): walk the
entries of one directory, skip non-files, load each file, and on success
push the record and insert it (name, then truthy altName) into the live
`this.commands` map.  A missing directory or a failed `readdir` yields no
records and leaves the map untouched. -/
def loadCommandsFromDirectory (st : Registry) (dirPath : String) (scope : CommandScope)
    (d : DirListing) : Registry × List SlashCommand :=
  match d with
  | .missing => (st, [])
  | .readFailure => (st, [])
  | .entries es =>
    es.foldl
      (fun acc e =>
        if e.2.1 then
          match loadCommandFromFile (joinPath dirPath e.1) scope e.2.2 with
          | some c => (insertCommand acc.1 c, acc.2 ++ [c])
          | none => acc
        else acc)
      (st, [])

/-- CustomCommandLoader.loadCustomCommands (lines 87-106): `this.commands`
is cleared first (`this.commands.clear()`), then each enabled directory is
loaded in declared order into the live map, accumulating the flat record
list; per-directory failures are caught and skipped.  The previous registry
contents, passed as `prevCommands`, are discarded by the clear. -/
def loadCustomCommands (prevCommands : Registry) (dirs : List ScopeDir) :
    Registry × List SlashCommand :=
  let _ := prevCommands
  dirs.foldl
    (fun acc dc =>
      if dc.enabled then
        let r := loadCommandsFromDirectory acc.1 dc.path dc.scope dc.listing
        (r.1, acc.2 ++ r.2)
      else acc)
    ([], [])

/-- CustomCommandLoader.setupDirectories (lines 69-82): the fixed, ordered
directory configuration — project scope first, personal scope second, both
enabled. -/
def setupDirectories (projectRoot homedir : String)
    (projListing persListing : DirListing) : List ScopeDir :=
  [ { path := projectRoot ++ "/.gemini/commands", scope := .project,
      enabled := true, listing := projListing },
    { path := homedir ++ "/.gemini/commands", scope := .personal,
      enabled := true, listing := persListing } ]

/-- The debounce delay of CustomCommandLoader.scheduleReload (500ms). -/
def debounceDelay : Nat := 500

/-- Timer semantics of scheduleReload (lines 711-724) over a trace of
change-notification times: each notification clears any pending timer and
arms a fresh one for `debounceDelay` later; a pending timer fires (one
reload) only if no further notification arrives strictly before its
deadline.  The returned list is the sequence of reload firing times. -/
def reloadTimes : List Nat → List Nat
  | [] => []
  | [t] => [t + debounceDelay]
  | t1 :: t2 :: ts =>
    if t2 < t1 + debounceDelay then reloadTimes (t2 :: ts)
    else (t1 + debounceDelay) :: reloadTimes (t2 :: ts)

/-- Claim C6's sanitization algorithm, written from the claim's words:
drop all non-ASCII code points; if nothing remains, empty result;
otherwise lower-case, strip characters outside `[a-z0-9 -]` (letters,
digits, the space character and the hyphen), collapse whitespace runs to
single hyphens, strip any non-letter prefix, collapse repeated hyphens,
trim leading and trailing hyphens, truncate to 50 characters. -/
def sanitizeSpecLiteral (name : String) : String :=
  let ascii := name.data.filter (fun c => c.toNat ≤ 127)
  if ascii.isEmpty then ""
  else
    let lowered := ascii.map asciiLowerChar
    let kept := lowered.filter (fun c => asciiLowerP c || asciiDigit c || c = ' ' || c = '-')
    let hyphened := collapseRuns (fun c => c = ' ') '-' kept
    let letterStart := hyphened.dropWhile (fun c => !asciiLowerP c)
    let collapsed := collapseRuns (fun c => c = '-') '-' letterStart
    String.mk ((trimHyphens collapsed).take 50)

/-- Run collapsing written as the spec describes it ("collapse runs"):
replace a maximal block of matching characters by the single replacement
and continue after the block.  This is the formulation the amended C6
algorithm uses; it is proved extensionally equal to the source's
`collapseRuns`. -/
def collapseRunsSpec (p : Char → Bool) (r : Char) : List Char → List Char
  | [] => []
  | c :: cs =>
    if p c then r :: collapseRunsSpec p r (cs.dropWhile p)
    else c :: collapseRunsSpec p r cs
termination_by l => l.length
decreasing_by
  · simp only [List.length_cons]
    exact Nat.lt_succ_of_le (List.dropWhile_suffix _).sublist.length_le
  · simp

/-- The amended C6 algorithm: as the claim, except that the retained
character class is letters, digits, hyphen and *all* whitespace (the
source's `\s`, not just the space character), whitespace runs of any
whitespace collapse to single hyphens, and "nothing remains" is judged
after trimming whitespace from the ASCII remainder. -/
def sanitizeSpecAmended (name : String) : String :=
  let ascii := name.data.filter (fun c => c.toNat ≤ 127)
  if ascii.all jsWs then ""
  else
    let lowered := ascii.map asciiLowerChar
    let kept := lowered.filter (fun c => asciiAlpha c || asciiDigit c || jsWs c || c = '-')
    let hyphened := collapseRunsSpec jsWs '-' kept
    let letterStart := hyphened.dropWhile (fun c => !asciiAlpha c)
    let collapsed := collapseRunsSpec (fun c => c = '-') '-' letterStart
    String.mk ((trimHyphens collapsed).take 50)

/-- Claim C10's first reading: the text of the first second-level heading
anywhere in the file. -/
def mdFirstH2 : List String → Option String
  | [] => none
  | l :: ls =>
    let t := jsTrim l
    if sw t "## " then some (jsTrim (sDrop t 3)) else mdFirstH2 ls

/-- Claim C10's fallback reading: the first plain line that is neither a
heading nor a fence delimiter nor inside a fenced code block (fences
toggled by lines starting with three backticks). -/
def mdFirstPlain : List String → Bool → Option String
  | [], _ => none
  | l :: ls, inFence =>
    let t := jsTrim l
    if sw t "```" then mdFirstPlain ls (!inFence)
    else if inFence then mdFirstPlain ls inFence
    else if t ≠ "" && !sw t "#" then some t
    else mdFirstPlain ls inFence

/-- Claim C10 as stated: first `##` heading text, or, absent such a
heading, the first plain non-heading line outside fenced code blocks. -/
def mdDescClaim (lines : List String) : Option String :=
  match mdFirstH2 lines with
  | some d => some d
  | none => mdFirstPlain lines false

/-- The description the markdown scan actually extracts, written from the
amended claim: scanning in line order (stopping for good when the first
shell-tagged fence with non-blank content closes), the first line that is
either a `## ` heading (its trimmed tail) or a non-empty line starting with
neither `#` nor three backticks (its trimmed text) — lines inside
shell-tagged fences included.  A heading line counts only when its
rendered text is non-blank, mirroring the code's truthiness test on the
description (for a trimmed line the text after `## ` is blank only in the
degenerate case where the heading marker is the whole line).  The Boolean
`hasContent` tracks whether the currently open shell fence has accumulated
non-blank content. -/
def mdDescSpec : List String → Bool → Bool → Option String
  | [], _, _ => none
  | l :: ls, inCode, hasContent =>
    let t := jsTrim l
    if sw t "```bash" || sw t "```sh" || sw t "```shell" then
      mdDescSpec ls true hasContent
    else if t = "```" && inCode then
      (if hasContent then none else mdDescSpec ls false false)
    else if sw t "## " && !(jsTrim (sDrop t 3) = "") then some (jsTrim (sDrop t 3))
    else if t ≠ "" && !sw t "#" && !sw t "```" then some t
    else mdDescSpec ls inCode (if inCode then hasContent || !(jsTrim l = "") else hasContent)

/-- A record occupies a registry key when the key is its name or its truthy
alias — the two `set` calls of the insertion step. -/
def commandTouches (c : SlashCommand) (k : String) : Prop :=
  c.name = k ∨ (c.altName = some k ∧ k ≠ "")

instance (c : SlashCommand) (k : String) : Decidable (commandTouches c k) := by
  unfold commandTouches; infer_instance

/-- The last record of the list that occupies key `k`, if any: the record
the registry must map `k` to after folding the list in. -/
def lastTouch (l : List SlashCommand) (k : String) : Option SlashCommand :=
  l.foldl (fun acc c => if commandTouches c k then some c else acc) none

/-- Keys of a registry, in insertion order. -/
def keysOf (m : Registry) : List String := m.map Prod.fst


theorem mapFind_mapSet (m : Registry) (k' k : String) (v : SlashCommand) :
    mapFind (mapSet m k' v) k = if k' = k then some v else mapFind m k := by
  induction m with
  | nil => simp [mapSet, mapFind]
  | cons hd tl ih =>
    obtain ⟨a, b⟩ := hd
    simp only [mapSet]
    by_cases hak : a = k'
    · simp only [if_pos hak]
      subst hak
      by_cases hk : a = k
      · simp [mapFind, hk]
      · simp [mapFind, hk]
    · simp only [if_neg hak]
      by_cases hk : a = k
      · have hk'k : ¬k' = k := by
          intro h
          exact hak (hk.trans h.symm)
        simp [mapFind, hk, hk'k]
      · simp [mapFind, hk, ih]

theorem mapFind_insertCommand (m : Registry) (c : SlashCommand) (k : String) :
    mapFind (insertCommand m c) k = if commandTouches c k then some c else mapFind m k := by
  obtain ⟨nm, alt, d, act, md⟩ := c
  cases alt with
  | none =>
    simp only [insertCommand, commandTouches, mapFind_mapSet]
    by_cases hn : nm = k
    · simp [hn]
    · simp [hn]
  | some a =>
    simp only [insertCommand, commandTouches]
    by_cases ha : a = ""
    · subst ha
      have hcontra : ¬(("" : String) = k ∧ ¬k = "") := by
        rintro ⟨h1, h2⟩
        exact h2 h1.symm
      by_cases hn : nm = k
      · simp [hn, mapFind_mapSet]
      · simp [hn, hcontra, mapFind_mapSet]
    · simp only [if_neg ha, mapFind_mapSet]
      by_cases hak : a = k
      · subst hak
        simp [ha]
      · by_cases hn : nm = k
        · simp [hn, hak]
        · simp [hn, hak]

theorem foldl_touch (l : List SlashCommand) (k : String) (acc : Option SlashCommand) :
    l.foldl (fun acc c => if commandTouches c k then some c else acc) acc
      = (lastTouch l k <|> acc) := by
  induction l generalizing acc with
  | nil => simp [lastTouch]
  | cons c cs ih =>
    have hc : lastTouch (c :: cs) k
        = (lastTouch cs k <|> (if commandTouches c k then some c else none)) := by
      simp only [lastTouch, List.foldl_cons]
      exact ih _
    simp only [List.foldl_cons]
    rw [ih, hc]
    cases lastTouch cs k <;> by_cases ht : commandTouches c k <;> simp [ht]

theorem mapFind_foldl (l : List SlashCommand) (m : Registry) (k : String) :
    mapFind (l.foldl insertCommand m) k = (lastTouch l k <|> mapFind m k) := by
  induction l generalizing m with
  | nil => simp [lastTouch]
  | cons c cs ih =>
    have hc : lastTouch (c :: cs) k
        = (lastTouch cs k <|> (if commandTouches c k then some c else none)) := by
      simp only [lastTouch, List.foldl_cons]
      exact foldl_touch cs k _
    simp only [List.foldl_cons]
    rw [ih, mapFind_insertCommand, hc]
    cases lastTouch cs k <;> by_cases ht : commandTouches c k <;> simp [ht]

theorem lastTouch_append (P Q : List SlashCommand) (k : String) :
    lastTouch (P ++ Q) k = (lastTouch Q k <|> lastTouch P k) := by
  have h1 : lastTouch (P ++ Q) k
      = Q.foldl (fun acc c => if commandTouches c k then some c else acc) (lastTouch P k) := by
    simp only [lastTouch, List.foldl_append]
  rw [h1, foldl_touch]

/-- C1: in a load cycle that folds built-in records, then project-scope
records, then personal-scope records into the registry (the
CommandService.loadCommands merge, whose custom list is the loader's
project-directory records followed by its personal-directory records), any
key occupied by several records — through primary name or truthy alias
alike — ends up mapped to the record inserted last in scope order: the
last personal occupant if any, else the last project occupant, else the
last built-in occupant.  The merge is a total fold: no error is raised on
collision. -/
theorem c1_override_order (B P Q : List SlashCommand) (k : String) :
    (∀ c, lastTouch Q k = some c → mapFind (loadCommands B (P ++ Q)) k = some c) ∧
    (lastTouch Q k = none → ∀ c, lastTouch P k = some c →
      mapFind (loadCommands B (P ++ Q)) k = some c) ∧
    (lastTouch Q k = none → lastTouch P k = none →
      mapFind (loadCommands B (P ++ Q)) k = lastTouch B k) := by
  have h : mapFind (loadCommands B (P ++ Q)) k
      = ((lastTouch Q k <|> lastTouch P k) <|> lastTouch B k) := by
    unfold loadCommands
    rw [mapFind_foldl, mapFind_foldl, lastTouch_append]
    simp [mapFind]
  refine ⟨?_, ?_, ?_⟩
  · intro c hc
    rw [h, hc]
    rfl
  · intro hq c hp
    rw [h, hq, hp]
    rfl
  · intro hq hp
    rw [h, hq, hp]
    cases lastTouch B k <;> rfl

/-- Witness for C1 at the spec's own test vector: a name `deploy` colliding
in all three scopes resolves to the personal-scope record. -/
theorem c1_override_order_witness :
    mapFind (loadCommands
        [{ name := "deploy", description := some "builtin" }]
        ([{ name := "deploy", description := some "project" }] ++
         [{ name := "deploy", altName := some "d", description := some "personal" }]))
        "deploy"
      = some { name := "deploy", altName := some "d", description := some "personal" } :=
  (c1_override_order
      [{ name := "deploy", description := some "builtin" }]
      [{ name := "deploy", description := some "project" }]
      [{ name := "deploy", altName := some "d", description := some "personal" }]
      "deploy").1
    { name := "deploy", altName := some "d", description := some "personal" }
    (by simp [lastTouch, commandTouches])

theorem keysOf_cons (a : String) (b : SlashCommand) (l : Registry) :
    keysOf ((a, b) :: l) = a :: keysOf l := rfl

theorem keysOf_mapSet_mem (m : Registry) (k : String) (v : SlashCommand) (x : String) :
    x ∈ keysOf (mapSet m k v) ↔ (x ∈ keysOf m ∨ x = k) := by
  induction m with
  | nil => simp [mapSet, keysOf]
  | cons hd tl ih =>
    obtain ⟨a, b⟩ := hd
    by_cases hak : a = k
    · subst hak
      rw [show mapSet ((a, b) :: tl) a v = (a, v) :: tl from by simp [mapSet]]
      simp only [keysOf_cons, List.mem_cons]
      tauto
    · rw [show mapSet ((a, b) :: tl) k v = (a, b) :: mapSet tl k v from by simp [mapSet, hak]]
      simp only [keysOf_cons, List.mem_cons, ih]
      tauto

theorem nodup_mapSet (m : Registry) (k : String) (v : SlashCommand)
    (h : (keysOf m).Nodup) : (keysOf (mapSet m k v)).Nodup := by
  induction m with
  | nil => simp [mapSet, keysOf]
  | cons hd tl ih =>
    obtain ⟨a, b⟩ := hd
    rw [keysOf_cons, List.nodup_cons] at h
    by_cases hak : a = k
    · subst hak
      rw [show mapSet ((a, b) :: tl) a v = (a, v) :: tl from by simp [mapSet]]
      rw [keysOf_cons, List.nodup_cons]
      exact h
    · rw [show mapSet ((a, b) :: tl) k v = (a, b) :: mapSet tl k v from by simp [mapSet, hak]]
      rw [keysOf_cons, List.nodup_cons]
      refine ⟨?_, ih h.2⟩
      intro hmem
      rcases (keysOf_mapSet_mem tl k v a).mp hmem with h' | h'
      · exact h.1 h'
      · exact hak h'

theorem nodup_insertCommand (m : Registry) (c : SlashCommand)
    (h : (keysOf m).Nodup) : (keysOf (insertCommand m c)).Nodup := by
  unfold insertCommand
  cases c.altName with
  | none => exact nodup_mapSet m c.name c h
  | some a =>
    by_cases ha : a = ""
    · simp only [ha, if_pos rfl]
      exact nodup_mapSet m c.name c h
    · simp only [if_neg ha]
      exact nodup_mapSet _ a c (nodup_mapSet m c.name c h)

theorem nodup_foldl_insert (l : List SlashCommand) (m : Registry)
    (h : (keysOf m).Nodup) : (keysOf (l.foldl insertCommand m)).Nodup := by
  induction l generalizing m with
  | nil => exact h
  | cons c cs ih =>
    simp only [List.foldl_cons]
    exact ih _ (nodup_insertCommand m c h)

/-- C4 counterexample: the invariant fails after a later scope overrides
just one of a record's two keys.  With a project record named `a` aliased
`b` followed by a personal record named `b`, the final registry maps `a`
to the first record (which still carries both `name = a` and
`altName = b`) but maps `b` to the second record — the primary name and
the alias of a record reachable from the registry no longer resolve to the
same record, contradicting the claim's "including after later scopes have
performed overrides". -/
theorem c4_counterexample :
    mapFind (loadCommands []
        [{ name := "a", altName := some "b" }, { name := "b" }]) "a"
      = some { name := "a", altName := some "b" } ∧
    mapFind (loadCommands []
        [{ name := "a", altName := some "b" }, { name := "b" }]) "b"
      = some { name := "b" } ∧
    ({ name := "a", altName := some "b" } : SlashCommand) ≠ { name := "b" } := by
  refine ⟨rfl, rfl, ?_⟩
  intro h
  exact absurd (congrArg SlashCommand.name h) (by decide)

/-- C4 amended: in every registry produced by the load-cycle merge, each
present key resolves to exactly one record (the key list is
duplicate-free); and a record's primary name and truthy alias resolve to
that same record provided the record is the last-inserted occupant of
*both* keys — a record inserted later that reuses exactly one of the two
keys remaps only that key, as the counterexample shows. -/
theorem c4_amended (B C : List SlashCommand) :
    (keysOf (loadCommands B C)).Nodup ∧
    (∀ r a, r.altName = some a → a ≠ "" →
      lastTouch (B ++ C) r.name = some r → lastTouch (B ++ C) a = some r →
      mapFind (loadCommands B C) r.name = some r ∧
      mapFind (loadCommands B C) a = some r) := by
  have hfold : ∀ k, mapFind (loadCommands B C) k = (lastTouch (B ++ C) k <|> none) := by
    intro k
    unfold loadCommands
    rw [mapFind_foldl, mapFind_foldl, lastTouch_append]
    cases lastTouch C k <;> cases lastTouch B k <;> simp [mapFind]
  refine ⟨?_, ?_⟩
  · exact nodup_foldl_insert C _ (nodup_foldl_insert B [] (by simp [keysOf]))
  · intro r a _ _ hname halt
    constructor
    · rw [hfold, hname]
      rfl
    · rw [hfold, halt]
      rfl

/-- Witness for the amended C4: a single record with name `run` and alias
`r` is the last occupant of both keys, and both lookups return it. -/
theorem c4_amended_witness :
    mapFind (loadCommands [] [{ name := "run", altName := some "r" }]) "run"
      = some { name := "run", altName := some "r" } ∧
    mapFind (loadCommands [] [{ name := "run", altName := some "r" }]) "r"
      = some { name := "run", altName := some "r" } :=
  (c4_amended [] [{ name := "run", altName := some "r" }]).2
    { name := "run", altName := some "r" } "r" rfl (by decide)
    (by simp [lastTouch, commandTouches])
    (by simp [lastTouch, commandTouches])

theorem dirEntriesFold_invariant (dirPath : String) (scope : CommandScope)
    (es : List (String × Bool × FileModel)) (M : Registry) :
    ∀ acc : Registry × List SlashCommand, acc.1 = List.foldl insertCommand M acc.2 →
      (es.foldl
        (fun acc e =>
          if e.2.1 then
            match loadCommandFromFile (joinPath dirPath e.1) scope e.2.2 with
            | some c => (insertCommand acc.1 c, acc.2 ++ [c])
            | none => acc
          else acc) acc).1
      = List.foldl insertCommand M
        ((es.foldl
          (fun acc e =>
            if e.2.1 then
              match loadCommandFromFile (joinPath dirPath e.1) scope e.2.2 with
              | some c => (insertCommand acc.1 c, acc.2 ++ [c])
              | none => acc
            else acc) acc).2) := by
  induction es with
  | nil => exact fun acc h => h
  | cons e es ih =>
    intro acc hacc
    simp only [List.foldl_cons]
    apply ih
    by_cases hf : e.2.1
    · simp only [hf, if_pos]
      cases hload : loadCommandFromFile (joinPath dirPath e.1) scope e.2.2 with
      | none => exact hacc
      | some c =>
        simp only [List.foldl_append, List.foldl_cons, List.foldl_nil, hacc]
    · simp only [hf, if_neg, Bool.false_eq_true, not_false_eq_true]
      exact hacc

theorem loadDir_registry (st : Registry) (dirPath : String) (scope : CommandScope)
    (d : DirListing) :
    (loadCommandsFromDirectory st dirPath scope d).1
      = List.foldl insertCommand st (loadCommandsFromDirectory st dirPath scope d).2 := by
  cases d with
  | missing => rfl
  | readFailure => rfl
  | entries es => exact dirEntriesFold_invariant dirPath scope es st (st, []) rfl

/-- C2 counterexample: with a previously loaded registry containing the
record `old`, a reload cycle whose only (project) directory read fails
leaves the loader's registry empty — the lookup of `old` now misses even
though the reload failed, because `loadCustomCommands` clears the live map
at entry instead of building a replacement and swapping it in on success.
The previous registry did not remain authoritative. -/
theorem c2_counterexample :
    mapFind (loadCustomCommands
        (insertCommand [] { name := "old" })
        [{ path := "/proj/.gemini/commands", scope := .project, enabled := true,
           listing := .readFailure }]).1 "old" = none ∧
    mapFind (insertCommand [] { name := "old" }) "old"
      = some { name := "old" } := ⟨rfl, rfl⟩

/-- C2 amended: `CustomCommandLoader.loadCustomCommands` clears the live
registry at the start of every cycle and rebuilds it in place, so after a
cycle — failed or not — the registry holds exactly the records that loaded
successfully in *that* cycle (it equals the insertion fold of the cycle's
returned record list over the empty map), and the outcome is independent
of the previously loaded registry, which is discarded rather than kept
authoritative.  (The `CommandService.loadCommands` merge, by contrast,
does build its map locally and swaps `this.commands` only at the end.) -/
theorem c2_amended (prev : Registry) (dirs : List ScopeDir) :
    (loadCustomCommands prev dirs).1
      = List.foldl insertCommand [] (loadCustomCommands prev dirs).2 ∧
    loadCustomCommands prev dirs = loadCustomCommands [] dirs := by
  constructor
  · unfold loadCustomCommands
    suffices h : ∀ acc : Registry × List SlashCommand,
        acc.1 = List.foldl insertCommand [] acc.2 →
        (dirs.foldl
          (fun acc dc =>
            if dc.enabled then
              let r := loadCommandsFromDirectory acc.1 dc.path dc.scope dc.listing
              (r.1, acc.2 ++ r.2)
            else acc) acc).1
        = List.foldl insertCommand []
          ((dirs.foldl
            (fun acc dc =>
              if dc.enabled then
                let r := loadCommandsFromDirectory acc.1 dc.path dc.scope dc.listing
                (r.1, acc.2 ++ r.2)
              else acc) acc).2) by
      exact h ([], []) rfl
    induction dirs with
    | nil => exact fun acc h => h
    | cons dc ds ih =>
      intro acc hacc
      simp only [List.foldl_cons]
      apply ih
      by_cases he : dc.enabled
      · simp only [he, if_pos]
        rw [loadDir_registry, hacc, ← List.foldl_append]
      · simp only [he, Bool.false_eq_true, if_neg, not_false_eq_true]
        exact hacc
  · rfl

theorem foldl_skip_middle {α β : Type _} (f : β → α → β) (bad : α)
    (hbad : ∀ acc, f acc bad = acc) (pre post : List α) (a : β) :
    List.foldl f a (pre ++ bad :: post) = List.foldl f a (pre ++ post) := by
  induction pre generalizing a with
  | nil => simp [List.foldl_cons, hbad]
  | cons x xs ih => simp only [List.cons_append, List.foldl_cons, ih]

theorem foldl_congr_elem {α β : Type _} (f : β → α → β) (x y : α)
    (hxy : ∀ acc, f acc x = f acc y) (pre post : List α) (a : β) :
    List.foldl f a (pre ++ x :: post) = List.foldl f a (pre ++ y :: post) := by
  induction pre generalizing a with
  | nil => simp only [List.nil_append, List.foldl_cons, hxy]
  | cons z zs ih => simp only [List.cons_append, List.foldl_cons, ih]

/-- C8: one file's failure is invisible to the rest of the load cycle.  If
a directory entry `bad` yields no record (its parser failed, its
validation failed, its read failed — every such failure makes
`loadCommandFromFile` return `none`, the model of the caught exception),
then the whole load cycle — prior directories, sibling files of the same
directory, and all directories of the other scope included — produces
exactly the registry and record list it would produce without that entry.
All functions involved are total: no per-file failure escapes the cycle. -/
theorem c8_failure_isolation (prev : Registry) (dirsA dirsB : List ScopeDir)
    (p : String) (sc : CommandScope) (en : Bool)
    (pre post : List (String × Bool × FileModel)) (bad : String × Bool × FileModel)
    (hbad : bad.2.1 = true → loadCommandFromFile (joinPath p bad.1) sc bad.2.2 = none) :
    loadCustomCommands prev
        (dirsA ++ { path := p, scope := sc, enabled := en,
                    listing := .entries (pre ++ bad :: post) } :: dirsB)
      = loadCustomCommands prev
        (dirsA ++ { path := p, scope := sc, enabled := en,
                    listing := .entries (pre ++ post) } :: dirsB) := by
  unfold loadCustomCommands
  apply foldl_congr_elem
  intro acc
  by_cases he : en
  · simp only [he, if_pos]
    have hdir : loadCommandsFromDirectory acc.1 p sc (.entries (pre ++ bad :: post))
        = loadCommandsFromDirectory acc.1 p sc (.entries (pre ++ post)) := by
      unfold loadCommandsFromDirectory
      apply foldl_skip_middle
      intro acc'
      by_cases hf : bad.2.1
      · simp only [hf, if_pos, hbad hf]
      · simp only [hf, Bool.false_eq_true, if_neg, not_false_eq_true]
    rw [hdir]
  · simp only [he, Bool.false_eq_true, if_neg, not_false_eq_true]

/-- Witness for C8: a JSON file with a syntax error sitting between two
good files in the project directory, with a personal directory after it;
deleting the broken file changes nothing about the cycle's outcome. -/
theorem c8_failure_isolation_witness :
    loadCustomCommands []
        [{ path := "/proj/.gemini/commands", scope := .project, enabled := true,
           listing := .entries
             [("good.json", true,
                { read := .ok "\x7b\x22name\x22:\x22good\x22\x7d",
                  jsonParsed := .ok { name := .str "good" } }),
              ("bad.json", true,
                { read := .ok "\x7bnot json", jsonParsed := .error "SyntaxError" }),
              ("note.md", true,
                { read := .ok "# Note\nA note command.\n" })] },
         { path := "/home/u/.gemini/commands", scope := .personal, enabled := true,
           listing := .entries
             [("p.json", true,
                { read := .ok "\x7b\x22name\x22:\x22p\x22\x7d",
                  jsonParsed := .ok { name := .str "p" } })] }]
      = loadCustomCommands []
        [{ path := "/proj/.gemini/commands", scope := .project, enabled := true,
           listing := .entries
             [("good.json", true,
                { read := .ok "\x7b\x22name\x22:\x22good\x22\x7d",
                  jsonParsed := .ok { name := .str "good" } }),
              ("note.md", true,
                { read := .ok "# Note\nA note command.\n" })] },
         { path := "/home/u/.gemini/commands", scope := .personal, enabled := true,
           listing := .entries
             [("p.json", true,
                { read := .ok "\x7b\x22name\x22:\x22p\x22\x7d",
                  jsonParsed := .ok { name := .str "p" } })] }] :=
  c8_failure_isolation [] []
    [{ path := "/home/u/.gemini/commands", scope := .personal, enabled := true,
       listing := .entries
         [("p.json", true,
            { read := .ok "\x7b\x22name\x22:\x22p\x22\x7d",
              jsonParsed := .ok { name := .str "p" } })] }]
    "/proj/.gemini/commands" .project true
    [("good.json", true,
       { read := .ok "\x7b\x22name\x22:\x22good\x22\x7d",
         jsonParsed := .ok { name := .str "good" } })]
    [("note.md", true, { read := .ok "# Note\nA note command.\n" })]
    ("bad.json", true, { read := .ok "\x7bnot json", jsonParsed := .error "SyntaxError" })
    (fun _ => rfl)

/-- C3 behaves as a code bug: the loader means to stamp the loading scope
over the parser's placeholder (both parser sites carry the comment "Will
be overridden by caller"), but the spread `\x7b scope, sourceFormat,
sourcePath, ...command.metadata \x7d` puts the parser's metadata last, so
the parser's default wins.  Concretely, a JSON command file loaded from
the personal scope directory ends up with `metadata.scope = 'project'`,
not `'personal'` as the claim (and the code's own comments) require. -/
theorem c3_scope_stamp_bug :
    (((loadCommandFromFile "/home/user/.gemini/commands/t.json" CommandScope.personal
        { read := .ok "\x7b\x22name\x22:\x22t\x22\x7d",
          jsonParsed := .ok { name := .str "t" } }).bind
      (fun c => c.metadata)).bind (fun m => m.scope)) = some CommandScope.project ∧
    CommandScope.project ≠ CommandScope.personal := by
  exact ⟨rfl, by decide⟩

theorem getSubstitution_no_dollar (matched before after repl : List Char)
    (h : '$' ∉ repl) : getSubstitution matched before after repl = repl := by
  induction repl with
  | nil => rfl
  | cons c rest ih =>
    have hc : ¬(c = '$') := fun he => h (he ▸ List.mem_cons_self _ _)
    have hrest : '$' ∉ rest := fun hm => h (List.mem_cons_of_mem _ hm)
    rw [getSubstitution.eq_def]
    simp [hc, ih hrest]

theorem replaceFirstAux_no_dollar (pat repl : List Char) (h : '$' ∉ repl) :
    ∀ (l before : List Char),
      replaceFirstAux pat repl before l = verbatimReplaceFirstAux pat repl l := by
  intro l
  induction l with
  | nil =>
    intro before
    rfl
  | cons c cs ih =>
    intro before
    by_cases hp : pat.isPrefixOf (c :: cs) = true
    · simp [replaceFirstAux, verbatimReplaceFirstAux, hp,
        getSubstitution_no_dollar _ _ _ _ h]
    · simp [replaceFirstAux, verbatimReplaceFirstAux, hp, ih]

theorem jsReplaceFirst_verbatim (s pat repl : String) (h : '$' ∉ repl.data) :
    jsReplaceFirst s pat repl = verbatimReplaceFirst s pat repl := by
  unfold jsReplaceFirst verbatimReplaceFirst
  rw [replaceFirstAux_no_dollar pat.data repl.data h s.data []]

/-- C5 counterexample: the generated action does not substitute the
placeholder with the user-supplied string verbatim.  JavaScript's
`String.prototype.replace` expands dollar escapes in the replacement, so
for `command: "echo hi"`, `args: "{{args}}"` and the user argument `$&`
(which expands to the matched text), the program composes
`echo hi {{args}}`, not the `echo hi $&` the claim requires. -/
theorem c5_counterexample :
    ((createSimpleCommand
        { name := .str "t", command := .str "echo hi",
          args := .str argsPlaceholder }).bind
      (fun r => r.action)).map
        (fun f => f { config := none, processCwd := "/w" } "$&")
      = some (.tool "run_shell_command" ("echo hi " ++ argsPlaceholder) "/w") ∧
    ("echo hi " ++ argsPlaceholder) ≠ "echo hi $&" := ⟨rfl, by decide⟩

/-- C5 amended: for every structured-data command record that validates
and whose `command` field is a (truthy) string, the generated action,
applied to a user argument string, replaces the first `{{args}}` of the
`args` template with the user string expanded by JavaScript's
dollar-escape rules for string replacements (`$$` a literal dollar, `$&`
the matched `{{args}}` text, dollar-backtick the template text before the
match, dollar-apostrophe the text after it, any other dollar literal) —
verbatim whenever the argument contains no dollar — then joins `command`
and the substituted template with a separating space, trims, and requests
`run_shell_command` on the composed string in `cwd` if that is given
(truthy), else the context's project root, else the process working
directory. -/
theorem c5_simple_command_action (cfg : SimpleCommandConfig) (c a : String)
    (ctx : CommandContext) (u : String)
    (hval : validateSimpleCommand cfg = [])
    (hcmd : cfg.command = .str c) (hc : c ≠ "")
    (hargs : cfg.args = .str a) :
    ((createSimpleCommand cfg).bind (fun r => r.action)).map (fun f => f ctx u)
      = some (.tool "run_shell_command"
          (jsTrim (c ++ " " ++ jsReplaceFirst a argsPlaceholder u))
          (if jsTruthy cfg.cwd then jsToString cfg.cwd else resolveRootCwd ctx)) ∧
    ('$' ∉ u.data →
      jsReplaceFirst a argsPlaceholder u = verbatimReplaceFirst a argsPlaceholder u) := by
  constructor
  · have htr : jsTruthy (JSValue.str c) = true := by
      simpa [jsTruthy] using hc
    simp [createSimpleCommand, hval, htr, hargs, hcmd, jsToString]
  · intro hu
    exact jsReplaceFirst_verbatim a argsPlaceholder u hu

/-- Witness for the amended C5, the spec's round-trip vector:
`command: "echo hi"`, `args: "{{args}}"`, the dollar-free user argument
`"world"` composes exactly `echo hi world`, dispatched in the process
working directory when no cwd or project root is available. -/
theorem c5_simple_command_action_witness :
    ((createSimpleCommand
        { name := .str "t", command := .str "echo hi",
          args := .str argsPlaceholder }).bind
      (fun r => r.action)).map
        (fun f => f { config := none, processCwd := "/w" } "world")
      = some (.tool "run_shell_command" "echo hi world" "/w") :=
  ((c5_simple_command_action
      { name := .str "t", command := .str "echo hi", args := .str argsPlaceholder }
      "echo hi" argsPlaceholder { config := none, processCwd := "/w" } "world"
      rfl rfl (by decide) rfl).1).trans (by rfl)

/-- C7 counterexample: a candidate whose `description` is the number 42 —
present and not a string — produces an empty defect list and is accepted
by `createSimpleCommand`: `validateSimpleCommand` has no check for
`description` at all, contradicting the claim's field list. -/
theorem c7_counterexample :
    validateSimpleCommand { name := .str "ok", description := .num 42 } = [] ∧
    (createSimpleCommand { name := .str "ok", description := .num 42 }).isSome = true ∧
    isStrVal (JSValue.num 42) = false := ⟨rfl, rfl, rfl⟩

/-- C7 amended: the validator accumulates its defect segments in one pass
(not fail-fast) and the candidate is rejected exactly when the defect list
is non-empty; each of `category`, `author`, `version`, `command`, `args`
and `cwd` that is present with a *truthy* non-string value yields its
defect (a falsy non-string such as `0` or `null` escapes the truthiness
guard), and `description` is not checked at all. -/
theorem c7_amended (cfg : SimpleCommandConfig) :
    ((createSimpleCommand cfg) = none ↔ validateSimpleCommand cfg ≠ []) ∧
    (jsTruthy cfg.command = true → isStrVal cfg.command = false →
      "Command \"command\" must be a string" ∈ validateSimpleCommand cfg) ∧
    (jsTruthy cfg.args = true → isStrVal cfg.args = false →
      "Command \"args\" must be a string" ∈ validateSimpleCommand cfg) ∧
    (jsTruthy cfg.cwd = true → isStrVal cfg.cwd = false →
      "Command \"cwd\" must be a string" ∈ validateSimpleCommand cfg) ∧
    (jsTruthy cfg.category = true → isStrVal cfg.category = false →
      "Command \"category\" must be a string" ∈ validateSimpleCommand cfg) ∧
    (jsTruthy cfg.author = true → isStrVal cfg.author = false →
      "Command \"author\" must be a string" ∈ validateSimpleCommand cfg) ∧
    (jsTruthy cfg.version = true → isStrVal cfg.version = false →
      "Command \"version\" must be a string" ∈ validateSimpleCommand cfg) := by
  refine ⟨?_, ?_, ?_, ?_, ?_, ?_, ?_⟩
  · by_cases h : validateSimpleCommand cfg = [] <;> simp [createSimpleCommand, h]
  · intro h1 h2
    simp [validateSimpleCommand, h1, h2]
  · intro h1 h2
    simp [validateSimpleCommand, h1, h2]
  · intro h1 h2
    simp [validateSimpleCommand, h1, h2]
  · intro h1 h2
    simp [validateSimpleCommand, h1, h2]
  · intro h1 h2
    simp [validateSimpleCommand, h1, h2]
  · intro h1 h2
    simp [validateSimpleCommand, h1, h2]

/-- Witness for the amended C7: a truthy non-string `command` (the number
5) yields the command-type defect. -/
theorem c7_amended_witness :
    "Command \"command\" must be a string"
      ∈ validateSimpleCommand { name := .str "ok", command := .num 5 } :=
  (c7_amended { name := .str "ok", command := .num 5 }).2.1 rfl rfl

/-- C9: over a burst of change notifications each arriving strictly within
the fixed 500-unit debounce window of its predecessor, the shared timer is
cancelled and re-armed each time (the `clearTimeout`/`setTimeout` pair of
`scheduleReload` acting on the single `reloadTimer` field), so the whole
burst produces exactly one reload, and it fires exactly the fixed delay
after the last notification — in particular no earlier than that. -/
theorem c9_debounce (t : Nat) (ts : List Nat)
    (h : List.Chain (fun a b => b < a + debounceDelay) t ts) :
    reloadTimes (t :: ts) = [ts.getLastD t + debounceDelay] := by
  induction ts generalizing t with
  | nil => simp [reloadTimes]
  | cons t2 rest ih =>
    cases h with
    | cons hlt hchain =>
      have hrec := ih t2 hchain
      simp only [reloadTimes, if_pos hlt]
      rw [hrec, List.getLastD_cons]

/-- Witness for C9: three notifications at 0, 100 and 200 — each within
500 of the previous one — yield the single reload time 700. -/
theorem c9_debounce_witness : reloadTimes [0, 100, 200] = [700] :=
  (c9_debounce 0 [100, 200]
    (List.Chain.cons (by decide) (List.Chain.cons (by decide) List.Chain.nil))).trans rfl

theorem forall_dropWhile_iff (p : Char → Bool) (l : List Char) :
    (∀ c ∈ l.dropWhile p, p c) ↔ (∀ c ∈ l, p c) := by
  constructor
  · intro h c hc
    have hsplit : c ∈ l.takeWhile p ++ l.dropWhile p := by
      rw [List.takeWhile_append_dropWhile]
      exact hc
    rcases List.mem_append.mp hsplit with h' | h'
    · exact List.mem_takeWhile_imp h'
    · exact h c h'
  · intro h c hc
    exact h c ((List.dropWhile_suffix p).sublist.subset hc)

theorem jsTrimList_nil_iff (xs : List Char) :
    (jsTrimList xs = []) ↔ (∀ c ∈ xs, jsWs c) := by
  rw [jsTrimList, List.reverse_eq_nil_iff, List.dropWhile_eq_nil_iff]
  constructor
  · intro h
    exact (forall_dropWhile_iff jsWs xs).mp (fun d hd => h d (List.mem_reverse.mpr hd))
  · intro h c hc
    exact h c ((List.dropWhile_suffix jsWs).sublist.subset (List.mem_reverse.mp hc))

theorem collapseRunsAux_spec (p : Char → Bool) (r : Char) (l : List Char) :
    collapseRunsAux p r false l = collapseRunsSpec p r l ∧
    collapseRunsAux p r true l = collapseRunsSpec p r (l.dropWhile p) := by
  induction l with
  | nil => constructor <;> simp [collapseRunsAux, collapseRunsSpec, List.dropWhile]
  | cons c cs ih =>
    constructor
    · by_cases hc : p c
      · simp [collapseRunsAux, collapseRunsSpec, hc, ih.2]
      · simp [collapseRunsAux, collapseRunsSpec, hc, ih.1]
    · by_cases hc : p c
      · simp [collapseRunsAux, List.dropWhile, hc, ih.2]
      · simp [collapseRunsAux, collapseRunsSpec, List.dropWhile, hc, ih.1]

theorem collapseRuns_eq_spec (p : Char → Bool) (r : Char) (l : List Char) :
    collapseRuns p r l = collapseRunsSpec p r l := by
  unfold collapseRuns
  exact (collapseRunsAux_spec p r l).1

/-- C6 counterexample: on the input `a<TAB>b` the source keeps the tab
(its kept-character class is `[a-zA-Z0-9\s-]`, all of `\s`) and turns the
whitespace run into a hyphen, giving `a-b`; the claim's algorithm strips
everything outside `[a-z0-9 -]` first, so the tab disappears and the
result is `ab`.  The two algorithms therefore do not agree, refuting
"computes exactly". -/
theorem c6_counterexample :
    sanitizeCommandName "a\tb" = "a-b" ∧
    sanitizeSpecLiteral "a\tb" = "ab" ∧
    sanitizeCommandName "a\tb" ≠ sanitizeSpecLiteral "a\tb" := by
  refine ⟨rfl, rfl, by decide⟩

/-- C6 amended: the sanitization computes exactly the claim's algorithm
with two repairs — the kept-character class also retains every whitespace
character (not only the space), whitespace runs of any whitespace collapse
to single hyphens, and "nothing remains" is judged after trimming
whitespace from the ASCII remainder.  With those repairs the source
function and the described algorithm agree on every input. -/
theorem c6_sanitize_amended (s : String) :
    sanitizeCommandName s = sanitizeSpecAmended s := by
  unfold sanitizeCommandName sanitizeSpecAmended
  by_cases h : ∀ c ∈ s.data.filter (fun c => c.toNat ≤ 127), jsWs c
  · have h1 : (jsTrimList (s.data.filter (fun c => c.toNat ≤ 127))).isEmpty = true := by
      rw [List.isEmpty_iff]
      exact (jsTrimList_nil_iff _).mpr h
    have h2 : (s.data.filter (fun c => c.toNat ≤ 127)).all jsWs = true :=
      List.all_eq_true.mpr h
    simp [h1, h2]
  · have h1 : ¬((jsTrimList (s.data.filter (fun c => c.toNat ≤ 127))).isEmpty = true) := by
      rw [List.isEmpty_iff]
      intro hcon
      exact h ((jsTrimList_nil_iff _).mp hcon)
    have h2 : ¬((s.data.filter (fun c => c.toNat ≤ 127)).all jsWs = true) := by
      intro hcon
      exact h (List.all_eq_true.mp hcon)
    simp only [h1, h2, if_neg, if_false, Bool.false_eq_true, not_false_eq_true]
    simp only [collapseRuns_eq_spec]

theorem jsTrim_empty_iff (x : String) : (jsTrim x = "") ↔ (∀ c ∈ x.data, jsWs c) := by
  constructor
  · intro h
    exact (jsTrimList_nil_iff x.data).mp (congrArg String.data h)
  · intro h
    show String.mk (jsTrimList x.data) = ""
    rw [(jsTrimList_nil_iff x.data).mpr h]

theorem jsTrim_append_nl_iff (content l : String) :
    (jsTrim (content ++ l ++ "\n") = "") ↔ ((jsTrim content = "") ∧ (jsTrim l = "")) := by
  simp only [jsTrim_empty_iff]
  rw [show (content ++ l ++ "\n").data = (content.data ++ l.data) ++ ['\n'] from rfl]
  constructor
  · intro h
    exact ⟨fun c hc => h c (by simp [hc]), fun c hc => h c (by simp [hc])⟩
  · rintro ⟨h1, h2⟩ c hc
    rcases List.mem_append.mp hc with h | h
    · rcases List.mem_append.mp h with h' | h'
      · exact h1 c h'
      · exact h2 c h'
    · simp only [List.mem_singleton] at h
      subst h
      decide

theorem hasContent_update (content l : String) (inCode : Bool) :
    (!decide (jsTrim (if inCode then content ++ l ++ "\n" else content) = ""))
      = (if inCode then (!decide (jsTrim content = "")) || (!decide (jsTrim l = ""))
         else (!decide (jsTrim content = ""))) := by
  cases inCode with
  | false => simp
  | true =>
    simp only [if_true]
    by_cases hc : jsTrim content = "" <;> by_cases hl : jsTrim l = "" <;>
      simp [hc, hl, jsTrim_append_nl_iff]

theorem mdScan_desc_stable (lines : List String) : ∀ (inCode : Bool) (content d : String),
    d ≠ "" → (mdScan lines inCode content d).2 = d := by
  induction lines with
  | nil =>
    intro inCode content d _
    rfl
  | cons l ls ih =>
    intro inCode content d hd
    simp only [mdScan]
    split
    · exact ih true content d hd
    · by_cases h2 : (decide (jsTrim l = "```") && inCode) = true
      · rw [if_pos h2]
        by_cases h3 : jsTrim content ≠ ""
        · rw [if_pos h3]
        · rw [if_neg h3]
          exact ih false "" d hd
      · rw [if_neg h2]
        have hdd : decide (d = "") = false := by
          simp [hd]
        simp only [hdd, Bool.false_and, Bool.false_eq_true, if_false]
        exact ih _ _ d hd

theorem sw_hash_of_sw_hash2 (t : String) (h : sw t "## " = true) : sw t "#" = true := by
  unfold sw at h ⊢
  rw [List.isPrefixOf_iff_prefix] at h ⊢
  exact List.IsPrefix.trans (by decide) h

theorem mdScan_desc_spec (lines : List String) : ∀ (inCode : Bool) (content : String),
    (mdScan lines inCode content "").2
      = (mdDescSpec lines inCode (!decide (jsTrim content = ""))).getD "" := by
  induction lines with
  | nil =>
    intro inCode content
    rfl
  | cons l ls ih =>
    intro inCode content
    simp only [mdScan, mdDescSpec]
    by_cases h1 : (sw (jsTrim l) "```bash" || sw (jsTrim l) "```sh" || sw (jsTrim l) "```shell") = true
    · rw [if_pos h1, if_pos h1]
      exact ih true content
    · rw [if_neg h1, if_neg h1]
      by_cases h2 : (decide (jsTrim l = "```") && inCode) = true
      · rw [if_pos h2, if_pos h2]
        by_cases h3 : jsTrim content = ""
        · have hb : (!decide (jsTrim content = "")) = false := by simp [h3]
          rw [hb]
          rw [if_neg (show ¬(jsTrim content ≠ "") from fun hcon => hcon h3)]
          rw [if_neg (show ¬(false = true) from by decide)]
          have h0 : (!decide (jsTrim ("" : String) = "")) = false := by decide
          have hrec := ih false ""
          rw [h0] at hrec
          exact hrec
        · have hb : (!decide (jsTrim content = "")) = true := by simp [h3]
          rw [hb]
          rw [if_pos (show jsTrim content ≠ "" from h3)]
          rw [if_pos (show (true = true) from rfl)]
          rfl
      · rw [if_neg h2, if_neg h2]
        simp only [decide_True, Bool.true_and]
        by_cases hsw : sw (jsTrim l) "## " = true
        · have hsw1 : sw (jsTrim l) "#" = true := sw_hash_of_sw_hash2 _ hsw
          by_cases hrem : jsTrim (sDrop (jsTrim l) 3) = ""
          · rw [if_pos hsw, hrem]
            rw [if_neg (show ¬((sw (jsTrim l) "## " && !decide (("" : String) = "")) = true) from by
              simp)]
            rw [if_neg (show ¬((decide (jsTrim l ≠ "") && !sw (jsTrim l) "#" && !sw (jsTrim l) "```") = true) from by
              simp [hsw1])]
            rw [ih inCode _, hasContent_update]
          · rw [if_pos hsw]
            rw [mdScan_desc_stable ls _ _ _ hrem]
            rw [if_pos (show (sw (jsTrim l) "## " && !decide (jsTrim (sDrop (jsTrim l) 3) = "")) = true from by
              simp [hsw, hrem])]
            rfl
        · by_cases hpl : (decide (jsTrim l ≠ "") && !sw (jsTrim l) "#" && !sw (jsTrim l) "```") = true
          · have ht : jsTrim l ≠ "" := by
              simp only [Bool.and_eq_true, decide_eq_true_eq] at hpl
              exact hpl.1.1
            rw [if_neg hsw, if_pos hpl]
            rw [mdScan_desc_stable ls _ _ _ ht]
            rw [if_neg (show ¬((sw (jsTrim l) "## " && !decide (jsTrim (sDrop (jsTrim l) 3) = "")) = true) from by
              simp [hsw])]
            rw [if_pos hpl]
            rfl
          · rw [if_neg hsw, if_neg hpl]
            rw [if_neg (show ¬((sw (jsTrim l) "## " && !decide (jsTrim (sDrop (jsTrim l) 3) = "")) = true) from by
              simp [hsw])]
            rw [if_neg hpl]
            rw [ih inCode _, hasContent_update]

/-- C10 counterexample: in the file `# Build` / `hello` / `## Desc`, the
claim's reading picks the second-level heading text `Desc` (a `##` heading
exists), but the source's single else-if chain assigns the description
from the *first* matching line of either kind, so the earlier plain line
`hello` wins and the loaded record's description is `hello`. -/
theorem c10_counterexample :
    ((loadMarkdownCommand "/proj/.gemini/commands/build.md"
        "# Build\nhello\n## Desc\n").bind (fun c => c.description)) = some "hello" ∧
    mdDescClaim (splitLines "# Build\nhello\n## Desc\n") = some "Desc" ∧
    ("hello" : String) ≠ "Desc" := ⟨rfl, rfl, by decide⟩

/-- C10 amended: the description the markdown loader extracts is the text
of the *first* line, in file order, that is either a second-level heading
(its non-blank trimmed tail) or a non-empty plain line starting with
neither `#` nor a code fence — lines inside shell-tagged fenced blocks
being eligible as well, since the source's description check is not gated
on `inCodeBlock` — with the scan cut short when the first shell-tagged
fence with non-blank content closes (the loop `break`s there); a `##`
heading taken later than an earlier plain line never wins. -/
theorem c10_markdown_description (lines : List String) :
    (mdScan lines false "" "").2 = (mdDescSpec lines false false).getD "" := by
  have h := mdScan_desc_spec lines false ""
  have h0 : (!decide (jsTrim ("" : String) = "")) = false := by decide
  rw [h0] at h
  exact h
